import Mathlib

/-!
Verification of the log-structured key-value store (`src/lib.rs`).

Shallow embedding conventions:
* Keys and values are UTF-8 byte lists (`List Nat`, one `Nat` per byte),
  matching Rust `String` at the byte level.
* A log file is its byte list; the store directory is an association list
  from generation number to file contents (only `<gen>.log` files are
  modelled, since `open` ignores everything else).
* Buffered I/O is modelled at flush granularity: `set`/`remove` flush before
  returning, so after each completed operation the modelled file contents
  equal the flushed on-disk contents.
* The per-generation reader map of `KvStore` has exactly the directory's
  keys as its domain (one reader per discovered generation plus one for the
  active generation), so reads are modelled directly against the directory.
-/

namespace Kvs

/-- Association-list lookup, first match wins (models `HashMap::get` /
file lookup by name; key sets are kept duplicate-free by construction). -/
def lookupA {α β : Type} [DecidableEq α] : List (α × β) → α → Option β
  | [], _ => none
  | (a, b) :: l, k => if k = a then some b else lookupA l k

/-- Association-list insert (models `HashMap::insert`): replaces the first
binding of the key in place, or appends a new binding. -/
def insertA {α β : Type} [DecidableEq α] : List (α × β) → α → β → List (α × β)
  | [], k, v => [(k, v)]
  | (a, b) :: l, k, v => if k = a then (k, v) :: l else (a, b) :: insertA l k v

/-- Association-list erase (models `HashMap::remove`): removes every binding
of the key (maps built by the engine have unique keys). -/
def eraseA {α β : Type} [DecidableEq α] (l : List (α × β)) (k : α) : List (α × β) :=
  l.filter (fun p => !decide (p.1 = k))

/-- A `Command` from `lib.rs`: the two log record shapes. -/
inductive Command : Type
  | set (key value : List Nat)
  | remove (key : List Nat)
deriving DecidableEq

/-- Modelled from the spec: the error enum `KvsError` lives in `src/error.rs`
(`mod error`), which is absent from the repository snapshot; its variants
follow §7 of the spec: I/O, Codec, KeyNotFound, ReaderNotFound. -/
inductive KvsError : Type
  | ioError
  | codec
  | keyNotFound
  | readerNotFound
deriving DecidableEq

/-- A `LogSection` from `lib.rs`: `(generation, start, length)` pointer into
one generation's log file. -/
structure LogSection : Type where
  gen : Nat
  start : Nat
  length : Nat
deriving DecidableEq

/-- The in-memory index: key bytes to log pointer. -/
abbrev Index : Type := List (List Nat × LogSection)

/-- The store directory: generation number to log-file byte contents. -/
abbrev Dir : Type := List (Nat × List Nat)

/-! ### The log record codec

Modelled from the spec (§4.3) and the behaviour of `serde_json` on the
`Command` enum: compact externally tagged JSON, one object per line.  The
decoder covers the canonical encodings produced by the encoder (plus
surrounding JSON whitespace), which is the full domain on which the engine
invokes `serde_json::from_slice` / `from_str` in the verified claims. -/

/-- Lowercase hex digit byte for a nibble, as written by `serde_json`. -/
def hexDigitB (n : Nat) : Nat := if n < 10 then 0x30 + n else 0x57 + n

/-- JSON string escaping of one byte, after `serde_json`: `"` and `\` get a
backslash escape, the five named control escapes are used where they exist,
remaining control bytes become `\u00XX`, and all other bytes (including
UTF-8 continuation bytes) pass through unchanged. -/
def escapeByte (b : Nat) : List Nat :=
  if b = 0x22 then [0x5C, 0x22]
  else if b = 0x5C then [0x5C, 0x5C]
  else if b = 0x08 then [0x5C, 0x62]
  else if b = 0x09 then [0x5C, 0x74]
  else if b = 0x0A then [0x5C, 0x6E]
  else if b = 0x0C then [0x5C, 0x66]
  else if b = 0x0D then [0x5C, 0x72]
  else if b < 0x20 then [0x5C, 0x75, 0x30, 0x30, hexDigitB (b / 16), hexDigitB (b % 16)]
  else [b]

/-- JSON string escaping of a byte list. -/
def escBytes (s : List Nat) : List Nat := (s.map escapeByte).flatten

/-- Literal bytes of `{"Set":{"key":"` — the Set record up to the opening
quote of the key string. -/
def setLitB : List Nat :=
  [0x7B, 0x22, 0x53, 0x65, 0x74, 0x22, 0x3A, 0x7B, 0x22, 0x6B, 0x65, 0x79, 0x22, 0x3A, 0x22]

/-- Literal bytes of `,"value":"` — between the key's closing quote and the
value string. -/
def valSepB : List Nat :=
  [0x2C, 0x22, 0x76, 0x61, 0x6C, 0x75, 0x65, 0x22, 0x3A, 0x22]

/-- Literal bytes of the two closing braces. -/
def closeBB : List Nat := [0x7D, 0x7D]

/-- Literal bytes of `{"Remove":{"key":"`. -/
def remLitB : List Nat :=
  [0x7B, 0x22, 0x52, 0x65, 0x6D, 0x6F, 0x76, 0x65, 0x22, 0x3A, 0x7B, 0x22, 0x6B, 0x65, 0x79,
   0x22, 0x3A, 0x22]

/-- Canonical encoding of a command (`serde_json::to_writer` output). -/
def encode : Command → List Nat
  | .set k v => setLitB ++ escBytes k ++ (0x22 :: valSepB) ++ escBytes v ++ (0x22 :: closeBB)
  | .remove k => remLitB ++ escBytes k ++ (0x22 :: closeBB)

/-- One full log line: the encoded record plus the terminating newline
written by `set`/`remove` (`write_all(b"\n")`). -/
def encLine (c : Command) : List Nat := encode c ++ [0x0A]

/-- Byte contents of a log file holding the given record sequence. -/
def logBytes (cs : List Command) : List Nat := (cs.map encLine).flatten

/-- JSON insignificant whitespace bytes. -/
def isWsB (b : Nat) : Bool := b == 0x20 || b == 0x09 || b == 0x0A || b == 0x0D

/-- Drops leading JSON whitespace. -/
def skipWs : List Nat → List Nat
  | [] => []
  | b :: l => if isWsB b then skipWs l else b :: l

/-- Consumes an expected literal byte sequence, returning the remainder. -/
def expectLit : List Nat → List Nat → Option (List Nat)
  | [], l => some l
  | _ :: _, [] => none
  | p :: ps, b :: l => if b = p then expectLit ps l else none

/-- Value of one hex digit byte (either case), if any. -/
def hexVal (b : Nat) : Option Nat :=
  if 0x30 ≤ b ∧ b ≤ 0x39 then some (b - 0x30)
  else if 0x61 ≤ b ∧ b ≤ 0x66 then some (b - 0x57)
  else if 0x41 ≤ b ∧ b ≤ 0x46 then some (b - 0x37)
  else none

/-- Single-character JSON escapes accepted after a backslash. -/
def unescapeOne (e : Nat) : Option Nat :=
  if e = 0x22 then some 0x22
  else if e = 0x5C then some 0x5C
  else if e = 0x2F then some 0x2F
  else if e = 0x6E then some 0x0A
  else if e = 0x74 then some 0x09
  else if e = 0x62 then some 0x08
  else if e = 0x66 then some 0x0C
  else if e = 0x72 then some 0x0D
  else none

/-- UTF-8 bytes of a BMP code point (how `serde_json` materialises a
`\uXXXX` escape; surrogate pairs are outside the verified domain). -/
def utf8Bytes (n : Nat) : List Nat :=
  if n < 0x80 then [n]
  else if n < 0x800 then [0xC0 + n / 64, 0x80 + n % 64]
  else [0xE0 + n / 4096, 0x80 + n / 64 % 64, 0x80 + n % 64]

/-- JSON string body parser (after the opening quote), fuel-indexed: returns
the unescaped bytes and the remainder after the closing quote. -/
def parseStrF : Nat → List Nat → Option (List Nat × List Nat)
  | 0, _ => none
  | _ + 1, [] => none
  | fuel + 1, b :: rest =>
    if b = 0x22 then some ([], rest)
    else if b = 0x5C then
      match rest with
      | [] => none
      | e :: rest2 =>
        if e = 0x75 then
          match rest2 with
          | h1 :: h2 :: h3 :: h4 :: rest3 =>
            match hexVal h1, hexVal h2, hexVal h3, hexVal h4 with
            | some a, some b2, some c, some d =>
              (parseStrF fuel rest3).map
                (fun p => (utf8Bytes (((a * 16 + b2) * 16 + c) * 16 + d) ++ p.1, p.2))
            | _, _, _, _ => none
          | _ => none
        else
          match unescapeOne e with
          | none => none
          | some c => (parseStrF fuel rest2).map (fun p => (c :: p.1, p.2))
    else (parseStrF fuel rest).map (fun p => (b :: p.1, p.2))

/-- JSON string body parser with enough fuel for its input. -/
def parseStr (l : List Nat) : Option (List Nat × List Nat) := parseStrF l.length l

/-- Decoding of one record (`serde_json::from_slice` / `from_str` on the
`Command` enum, restricted to canonical encodings): accepts surrounding JSON
whitespace — in particular the trailing newline of a full log line. -/
def decode (bytes : List Nat) : Option Command :=
  let l := skipWs bytes
  match expectLit setLitB l with
  | some r =>
    match parseStr r with
    | none => none
    | some (k, r1) =>
      match expectLit valSepB r1 with
      | none => none
      | some r2 =>
        match parseStr r2 with
        | none => none
        | some (v, r3) =>
          match expectLit closeBB r3 with
          | none => none
          | some r4 => if skipWs r4 = [] then some (.set k v) else none
  | none =>
    match expectLit remLitB l with
    | none => none
    | some r =>
      match parseStr r with
      | none => none
      | some (k, r1) =>
        match expectLit closeBB r1 with
        | none => none
        | some r2 => if skipWs r2 = [] then some (.remove k) else none

/-! ### Lines of a log file -/

/-- Bytes of the next line: everything through and including the first
newline, or the whole remainder at end of file — exactly what
`BufRead::read_line` appends to its buffer. -/
def takeLine : List Nat → List Nat
  | [] => []
  | b :: rest => if b = 0x0A then [0x0A] else b :: takeLine rest

/-! ### Positional reader (`TrackingBufReader`)

`handlePos` is the underlying handle's offset (what `BufReader::seek`
repositions); `pos` is the wrapper's tracked counter field. -/

/-- A `TrackingBufReader` over a file handle. -/
structure TrackingBufReader : Type where
  handlePos : Nat
  pos : Nat
deriving DecidableEq

/-- The `TrackingBufReader::new` constructor: `seek(Current(0))` reports the
handle's current offset, which initialises both positions. -/
def TrackingBufReader.new (handleCur : Nat) : TrackingBufReader :=
  { handlePos := handleCur, pos := handleCur }

/-- The `Seek` impl of `TrackingBufReader`, translated verbatim: the result
of `self.reader.seek` is bound to a local `pos` that shadows the field and
is returned; the `pos` FIELD is never assigned. -/
def TrackingBufReader.seek (r : TrackingBufReader) (target : Nat) : TrackingBufReader × Nat :=
  ({ r with handlePos := target }, target)

/-- The `read_line` method of `TrackingBufReader`: reads one line from the
file at the handle position and advances both positions by the bytes read. -/
def TrackingBufReader.readLine (r : TrackingBufReader) (file : List Nat) :
    TrackingBufReader × List Nat :=
  let line := takeLine (file.drop r.handlePos)
  ({ handlePos := r.handlePos + line.length, pos := r.pos + line.length }, line)

/-! ### The `KvStore` engine -/

/-- The `KvStore` struct: active generation, in-memory index, the tracked
writer position of the active log, and the directory of log files.  The
per-generation reader map shares its domain with the directory, so reads go
straight to the directory (readers always `seek` before reading in `get`,
and `load` runs on freshly created readers, so reader buffer state never
influences any result). -/
structure KvStore : Type where
  gen : Nat
  map : Index
  writerPos : Nat
  dir : Dir
deriving DecidableEq

/-- Appends bytes to the named generation's file (the effect of writing
through the active writer and flushing). -/
def appendToFile (dir : Dir) (g : Nat) (bytes : List Nat) : Dir :=
  match dir with
  | [] => []
  | (a, f) :: l =>
    if a = g then (a, f ++ bytes) :: appendToFile l g bytes
    else (a, f) :: appendToFile l g bytes

/-- File contents for a generation, defaulting to empty. -/
def findFile (dir : Dir) (g : Nat) : List Nat := (lookupA dir g).getD []

/-- Creates the file if absent, keeps it otherwise (`OpenOptions` with
`create(true).append(true)`). -/
def ensureFile (dir : Dir) (g : Nat) : Dir :=
  match lookupA dir g with
  | some _ => dir
  | none => dir ++ [(g, [])]

/-- `KvStore::set`: record the start offset, append the encoded `Set`
record plus newline, flush, then index `(gen, pos_start, writer.pos)`
(converted to a length via `end - start`). -/
def KvStore.set (s : KvStore) (key value : List Nat) : KvStore :=
  let posStart := s.writerPos
  let bytes := encLine (Command.set key value)
  let newPos := posStart + bytes.length
  { s with
    writerPos := newPos
    dir := appendToFile s.dir s.gen bytes
    map := insertA s.map key ⟨s.gen, posStart, newPos - posStart⟩ }

/-- `KvStore::get`: index lookup, then reader lookup by generation, then
seek to `start`, `read_exact` of `length` bytes, decode; a decoded `Set`
yields its value, a decoded `Remove` yields `None`. -/
def KvStore.get (s : KvStore) (key : List Nat) : Except KvsError (Option (List Nat)) :=
  match lookupA s.map key with
  | none => .ok none
  | some sec =>
    match lookupA s.dir sec.gen with
    | none => .error .readerNotFound
    | some file =>
      if sec.start + sec.length ≤ file.length then
        match decode ((file.drop sec.start).take sec.length) with
        | none => .error .codec
        | some (Command.set _ v) => .ok (some v)
        | some (Command.remove _) => .ok none
      else .error .ioError

/-- `KvStore::remove`: if the key is absent from the index fail with
`KeyNotFound` (no write, no index change); otherwise drop the index entry
and append a `Remove` record plus newline, flushed. -/
def KvStore.remove (s : KvStore) (key : List Nat) : KvStore × Except KvsError Unit :=
  match lookupA s.map key with
  | some _ =>
    let bytes := encLine (Command.remove key)
    ({ s with
        writerPos := s.writerPos + bytes.length
        dir := appendToFile s.dir s.gen bytes
        map := eraseA s.map key }, .ok ())
  | none => (s, .error .keyNotFound)

/-- The `load` loop of `lib.rs` on the remaining bytes of one generation's
file: `read_line`, decode, apply (`Set` inserts `(gen, pos, reader.pos)`,
`Remove` erases), until `read_line` returns 0 bytes. -/
def loadLoop (idx : Index) (gen : Nat) (rest : List Nat) (pos : Nat) : Except KvsError Index :=
  match _h : rest with
  | [] => .ok idx
  | b :: rest' =>
    let line := takeLine (b :: rest')
    match decode line with
    | none => .error .codec
    | some (Command.set k _) =>
      loadLoop (insertA idx k ⟨gen, pos, line.length⟩) gen
        ((b :: rest').drop line.length) (pos + line.length)
    | some (Command.remove k) =>
      loadLoop (eraseA idx k) gen ((b :: rest').drop line.length) (pos + line.length)
  termination_by rest.length
  decreasing_by
    all_goals
      simp only [List.length_drop, List.length_cons]
      have : takeLine (b :: rest') ≠ [] := by
        simp only [takeLine]
        split <;> simp
      have hpos : 0 < (takeLine (b :: rest')).length := List.length_pos.mpr this
      omega

/-- Command-level view of one replay step: what `load` does to the index
for one decoded record sitting at absolute offset `pos`. -/
def applyRec (gen : Nat) (idx : Index) (c : Command) (pos : Nat) : Index :=
  match c with
  | .set k _ => insertA idx k ⟨gen, pos, (encLine c).length⟩
  | .remove k => eraseA idx k

/-- Command-level replay of a record sequence starting at offset `pos`. -/
def replayCmds (gen : Nat) : Index → List Command → Nat → Index
  | idx, [], _ => idx
  | idx, c :: cs, pos => replayCmds gen (applyRec gen idx c pos) cs (pos + (encLine c).length)

/-- `sorted_log_generations`: the generation numbers present in the
directory, ascending (`sort_unstable`).  In `lib.rs` this enumerates the
directory, keeps regular `.log` files whose stem parses as `u64`, and
sorts; the modelled directory holds exactly those files. -/
def sortedLogGenerations (dir : Dir) : List Nat :=
  List.insertionSort (· ≤ ·) (dir.map Prod.fst)

/-- Replays a list of generations in order against a shared index (the
reader-creation and `load` loop of `KvStore::open`; each generation's fresh
reader starts at offset 0). -/
def loadGens (dir : Dir) : List Nat → Index → Except KvsError Index
  | [], idx => .ok idx
  | g :: gs, idx =>
    match loadLoop idx g (findFile dir g) 0 with
    | .error e => .error e
    | .ok idx' => loadGens dir gs idx'

/-- `KvStore::open`: discover and sort generations, replay each into a fresh
index, pick `current_gen = last discovered (or 0) + 1`, create that log file
with an append writer positioned at end of file, and assemble the store. -/
def KvStore.open (dir : Dir) : Except KvsError KvStore :=
  let gens := sortedLogGenerations dir
  match loadGens dir gens [] with
  | .error e => .error e
  | .ok index =>
    let current := gens.getLast?.getD 0 + 1
    let dir2 := ensureFile dir current
    .ok { gen := current, map := index, writerPos := (findFile dir2 current).length, dir := dir2 }

/-- One public engine operation. -/
inductive Op : Type
  | set (key value : List Nat)
  | remove (key : List Nat)
  | get (key : List Nat)
deriving DecidableEq

/-- Applies one operation to the engine state.  `get` takes `&mut self` only
to move readers, which never affects any later result, so it is a state
no-op; a failed `remove` performs no write and no index change, so it is
also a state no-op. -/
def KvStore.step (s : KvStore) : Op → KvStore
  | .set k v => s.set k v
  | .remove k => (s.remove k).1
  | .get _ => s

/-- Applies a sequence of operations. -/
def KvStore.steps (s : KvStore) (ops : List Op) : KvStore := ops.foldl KvStore.step s

/-- The engine state produced by `open` on an empty directory. -/
def st0 : KvStore := { gen := 1, map := [], writerPos := 0, dir := [(1, [])] }

/-- An engine state whose index points at a `Remove` record — the (normally
unreachable) situation claim C3 is about. -/
def badStore : KvStore :=
  { gen := 1
    map := [([0x61], ⟨1, 0, (encLine (Command.remove [0x61])).length⟩)]
    writerPos := (encLine (Command.remove [0x61])).length
    dir := [(1, encLine (Command.remove [0x61]))] }

/-- Maximum generation number present in a directory (0 when empty). -/
def maxGen (dir : Dir) : Nat := (dir.map Prod.fst).foldr max 0

/-- A valid index pointer: it resolves to an existing file, lies in range,
and the bytes it delimits decode to a `Set` record for its own key. -/
def PtrGood (dir : Dir) (k : List Nat) (sec : LogSection) : Prop :=
  ∃ f v, lookupA dir sec.gen = some f ∧ sec.start + sec.length ≤ f.length ∧
    decode ((f.drop sec.start).take sec.length) = some (Command.set k v)

/-- Well-formedness of reachable engine states: the active log file exists,
is a concatenation of encoded records, and its length is the tracked writer
position; directory keys are distinct and bounded by the active generation;
replaying the directory reproduces the in-memory index exactly; and every
index pointer resolves, in range, to bytes that decode to a `Set` record
for its key. -/
def GoodState (s : KvStore) : Prop :=
  (∃ cs, lookupA s.dir s.gen = some (logBytes cs) ∧ (logBytes cs).length = s.writerPos) ∧
  (s.dir.map Prod.fst).Nodup ∧
  (∀ g ∈ s.dir.map Prod.fst, g ≤ s.gen) ∧
  loadGens s.dir (sortedLogGenerations s.dir) [] = .ok s.map ∧
  ∀ k sec, lookupA s.map k = some sec → PtrGood s.dir k sec

/-! ### Association list lemmas -/

theorem lookupA_insertA_self {α β : Type} [DecidableEq α] (l : List (α × β)) (k : α) (v : β) :
    lookupA (insertA l k v) k = some v := by
  induction l with
  | nil => simp [insertA, lookupA]
  | cons p l ih =>
    obtain ⟨a, b⟩ := p
    by_cases h : k = a
    · simp [insertA, h, lookupA]
    · simp [insertA, h, lookupA, ih]

theorem lookupA_insertA_ne {α β : Type} [DecidableEq α] (l : List (α × β)) (k k' : α) (v : β)
    (h : k' ≠ k) : lookupA (insertA l k v) k' = lookupA l k' := by
  induction l with
  | nil => simp [insertA, lookupA, h]
  | cons p l ih =>
    obtain ⟨a, b⟩ := p
    by_cases hk : k = a
    · subst hk
      simp [insertA, lookupA, h]
    · by_cases hk' : k' = a
      · simp [insertA, hk, lookupA, hk']
      · simp [insertA, hk, lookupA, hk', ih]

theorem lookupA_eraseA_self {α β : Type} [DecidableEq α] (l : List (α × β)) (k : α) :
    lookupA (eraseA l k) k = none := by
  induction l with
  | nil => simp [eraseA, lookupA]
  | cons p l ih =>
    obtain ⟨a, b⟩ := p
    by_cases h : a = k
    · simpa [eraseA, List.filter_cons, h] using ih
    · have hne : k ≠ a := fun hk => h hk.symm
      simpa [eraseA, List.filter_cons, h, lookupA, hne] using ih

theorem lookupA_eraseA_ne {α β : Type} [DecidableEq α] (l : List (α × β)) (k k' : α)
    (h : k' ≠ k) : lookupA (eraseA l k) k' = lookupA l k' := by
  induction l with
  | nil => simp [eraseA, lookupA]
  | cons p l ih =>
    obtain ⟨a, b⟩ := p
    by_cases ha : a = k
    · subst ha
      simpa [eraseA, List.filter_cons, lookupA, h] using ih
    · by_cases hk' : k' = a
      · simp [eraseA, List.filter_cons, ha, lookupA, hk']
      · simpa [eraseA, List.filter_cons, ha, lookupA, hk'] using ih

theorem lookupA_append_left {α β : Type} [DecidableEq α] (l l' : List (α × β)) (k : α) (v : β)
    (h : lookupA l k = some v) : lookupA (l ++ l') k = some v := by
  induction l with
  | nil => simp [lookupA] at h
  | cons p l ih =>
    obtain ⟨a, b⟩ := p
    by_cases hk : k = a
    · simp [lookupA, hk] at h ⊢
      exact h
    · simp [lookupA, hk] at h ⊢
      exact ih h

theorem lookupA_eq_none_iff {α β : Type} [DecidableEq α] (l : List (α × β)) (k : α) :
    lookupA l k = none ↔ k ∉ l.map Prod.fst := by
  induction l with
  | nil => simp [lookupA]
  | cons p l ih =>
    obtain ⟨a, b⟩ := p
    by_cases hk : k = a
    · simp [lookupA, hk]
    · simp [lookupA, hk, ih]

theorem lookupA_isSome_of_mem_keys {α β : Type} [DecidableEq α] (l : List (α × β)) (k : α)
    (h : k ∈ l.map Prod.fst) : ∃ v, lookupA l k = some v := by
  cases hl : lookupA l k with
  | none => exact absurd ((lookupA_eq_none_iff l k).mp hl) (not_not_intro h)
  | some v => exact ⟨v, rfl⟩

theorem lookupA_append_right {α β : Type} [DecidableEq α] (l l' : List (α × β)) (k : α)
    (h : k ∉ l.map Prod.fst) : lookupA (l ++ l') k = lookupA l' k := by
  induction l with
  | nil => simp
  | cons p l ih =>
    obtain ⟨a, b⟩ := p
    simp only [List.map_cons, List.mem_cons, not_or] at h
    simp [lookupA, h.1, ih h.2]

theorem map_fst_appendToFile (dir : Dir) (g : Nat) (bytes : List Nat) :
    (appendToFile dir g bytes).map Prod.fst = dir.map Prod.fst := by
  induction dir with
  | nil => rfl
  | cons p l ih =>
    obtain ⟨a, b⟩ := p
    by_cases h : a = g <;> simp [appendToFile, h, ih]

theorem lookupA_appendToFile_self (dir : Dir) (g : Nat) (bytes f : List Nat)
    (h : lookupA dir g = some f) : lookupA (appendToFile dir g bytes) g = some (f ++ bytes) := by
  induction dir with
  | nil => simp [lookupA] at h
  | cons p l ih =>
    obtain ⟨a, b⟩ := p
    by_cases hk : g = a
    · subst hk
      simp [lookupA] at h
      simp [appendToFile, lookupA, h]
    · have ha : ¬a = g := fun hh => hk hh.symm
      simp only [lookupA, hk, if_false] at h
      simp only [appendToFile, ha, if_false, lookupA, hk]
      exact ih h

theorem lookupA_appendToFile_ne (dir : Dir) (g g' : Nat) (bytes : List Nat)
    (h : g' ≠ g) : lookupA (appendToFile dir g bytes) g' = lookupA dir g' := by
  induction dir with
  | nil => rfl
  | cons p l ih =>
    obtain ⟨a, b⟩ := p
    by_cases ha : a = g
    · subst ha
      have : g' ≠ a := h
      simp [appendToFile, lookupA, this, ih]
    · by_cases hg' : g' = a
      · simp [appendToFile, ha, lookupA, hg']
      · simp [appendToFile, ha, lookupA, hg', ih]

/-! ### Line lemmas -/

theorem takeLine_length_pos (b : Nat) (rest : List Nat) :
    0 < (takeLine (b :: rest)).length := by
  simp only [takeLine]
  split <;> simp

theorem takeLine_length_le (l : List Nat) : (takeLine l).length ≤ l.length := by
  induction l with
  | nil => simp [takeLine]
  | cons b rest ih =>
    simp only [takeLine]
    split
    · simp
    · simpa using Nat.succ_le_succ ih

theorem takeLine_eq_take (l : List Nat) : l.take (takeLine l).length = takeLine l := by
  induction l with
  | nil => simp [takeLine]
  | cons b rest ih =>
    simp only [takeLine]
    split
    · next hb => simp [hb]
    · simpa using ih

theorem takeLine_append_full (l r : List Nat) (h : 0x0A ∉ l) :
    takeLine ((l ++ [0x0A]) ++ r) = l ++ [0x0A] := by
  induction l with
  | nil => simp [takeLine]
  | cons b rest ih =>
    simp only [List.mem_cons, not_or] at h
    have hb : ¬b = 0x0A := fun hh => h.1 hh.symm
    simp only [List.cons_append, takeLine, hb, if_false]
    exact congrArg (List.cons b) (ih h.2)

/-! ### Codec lemmas: no raw newline inside an encoded record -/

theorem hexDigitB_ge (n : Nat) : 0x30 ≤ hexDigitB n := by
  unfold hexDigitB
  split <;> omega

theorem hexDigitB_ne_nl (n : Nat) : hexDigitB n ≠ 0x0A := by
  have := hexDigitB_ge n
  omega

theorem nl_not_mem_escapeByte (b : Nat) : 0x0A ∉ escapeByte b := by
  have h1 := hexDigitB_ge (b / 16)
  have h2 := hexDigitB_ge (b % 16)
  unfold escapeByte
  repeat' split
  all_goals simp_all [List.mem_cons]
  all_goals omega

theorem nl_not_mem_escBytes (s : List Nat) : 0x0A ∉ escBytes s := by
  induction s with
  | nil => simp [escBytes]
  | cons b s ih =>
    simp only [escBytes, List.map_cons, List.flatten_cons, List.mem_append]
    rintro (h | h)
    · exact nl_not_mem_escapeByte b h
    · exact ih h

theorem nl_not_mem_encode (c : Command) : 0x0A ∉ encode c := by
  cases c with
  | set k v =>
    have hk := nl_not_mem_escBytes k
    have hv := nl_not_mem_escBytes v
    simp [encode, List.mem_append, List.mem_cons, hk, hv, setLitB, valSepB, closeBB]
  | remove k =>
    have hk := nl_not_mem_escBytes k
    simp [encode, List.mem_append, List.mem_cons, hk, remLitB, closeBB]

theorem takeLine_encLine (c : Command) (r : List Nat) :
    takeLine (encLine c ++ r) = encLine c := by
  have := takeLine_append_full (encode c) r (nl_not_mem_encode c)
  simpa [encLine, List.append_assoc] using this

/-! ### Codec lemmas: decoding inverts encoding -/

theorem hexVal_hexDigitB (n : Nat) (h : n < 16) : hexVal (hexDigitB n) = some n := by
  interval_cases n <;> rfl

theorem escBytes_cons (b : Nat) (s : List Nat) :
    escBytes (b :: s) = escapeByte b ++ escBytes s := by
  simp [escBytes]

theorem parseStrF_named (f e c : Nat) (tail : List Nat) (p : List Nat × List Nat)
    (he : unescapeOne e = some c) (hne : e ≠ 0x75) (hp : parseStrF f tail = some p) :
    parseStrF (f + 1) (0x5C :: e :: tail) = some (c :: p.1, p.2) := by
  simp [parseStrF, hne, he, hp]

theorem parseStrF_esc2 (s : List Nat)
    (ih : ∀ fuel r, (escBytes s ++ 0x22 :: r).length ≤ fuel →
      parseStrF fuel (escBytes s ++ 0x22 :: r) = some (s, r))
    (e c : Nat) (he : unescapeOne e = some c) (hne : e ≠ 0x75) :
    ∀ fuel r, (([0x5C, e] ++ escBytes s) ++ 0x22 :: r).length ≤ fuel →
      parseStrF fuel (([0x5C, e] ++ escBytes s) ++ 0x22 :: r) = some (c :: s, r) := by
  intro fuel r h
  cases fuel with
  | zero => simp at h
  | succ f =>
    have hlen : (escBytes s ++ 0x22 :: r).length ≤ f := by
      simp only [List.cons_append, List.nil_append, List.length_cons, List.length_append] at h ⊢
      omega
    have := parseStrF_named f e c (escBytes s ++ 0x22 :: r) (s, r) he hne (ih f r hlen)
    simpa using this

theorem parseStrF_escBytes (s : List Nat) : ∀ (fuel : Nat) (r : List Nat),
    (escBytes s ++ 0x22 :: r).length ≤ fuel →
    parseStrF fuel (escBytes s ++ 0x22 :: r) = some (s, r) := by
  induction s with
  | nil =>
    intro fuel r h
    simp only [escBytes, List.map_nil, List.flatten_nil, List.nil_append] at h ⊢
    cases fuel with
    | zero => simp at h
    | succ f => simp [parseStrF]
  | cons b s ih =>
    intro fuel r h
    rw [escBytes_cons] at h ⊢
    by_cases h22 : b = 0x22
    · subst h22
      exact parseStrF_esc2 s ih 0x22 0x22 rfl (by decide) fuel r h
    by_cases h5C : b = 0x5C
    · subst h5C
      exact parseStrF_esc2 s ih 0x5C 0x5C rfl (by decide) fuel r h
    by_cases h08 : b = 0x08
    · subst h08
      exact parseStrF_esc2 s ih 0x62 0x08 rfl (by decide) fuel r h
    by_cases h09 : b = 0x09
    · subst h09
      exact parseStrF_esc2 s ih 0x74 0x09 rfl (by decide) fuel r h
    by_cases h0A : b = 0x0A
    · subst h0A
      exact parseStrF_esc2 s ih 0x6E 0x0A rfl (by decide) fuel r h
    by_cases h0C : b = 0x0C
    · subst h0C
      exact parseStrF_esc2 s ih 0x66 0x0C rfl (by decide) fuel r h
    by_cases h0D : b = 0x0D
    · subst h0D
      exact parseStrF_esc2 s ih 0x72 0x0D rfl (by decide) fuel r h
    by_cases hlt : b < 0x20
    · have hesc : escapeByte b = [0x5C, 0x75, 0x30, 0x30, hexDigitB (b / 16), hexDigitB (b % 16)] := by
        simp [escapeByte, h22, h5C, h08, h09, h0A, h0C, h0D, hlt]
      rw [hesc] at h ⊢
      cases fuel with
      | zero => simp at h
      | succ f =>
        have hlen : (escBytes s ++ 0x22 :: r).length ≤ f := by
          simp only [List.cons_append, List.nil_append, List.length_cons, List.length_append] at h ⊢
          omega
        have hd1 : hexVal (hexDigitB (b / 16)) = some (b / 16) := hexVal_hexDigitB _ (by omega)
        have hd2 : hexVal (hexDigitB (b % 16)) = some (b % 16) := hexVal_hexDigitB _ (by omega)
        have h30 : hexVal 0x30 = some 0 := rfl
        have hval : ((0 * 16 + 0) * 16 + b / 16) * 16 + b % 16 = b := by omega
        have hval2 : b / 16 * 16 + b % 16 = b := by omega
        have hval3 : 16 * (b / 16) + b % 16 = b := by omega
        have hutf : utf8Bytes b = [b] := by
          unfold utf8Bytes
          rw [if_pos (by omega)]
        simp only [List.cons_append, List.nil_append]
        simp [parseStrF, h30, hd1, hd2, ih f r hlen, hval, hval2, hval3, hutf]
    · have hesc : escapeByte b = [b] := by
        simp [escapeByte, h22, h5C, h08, h09, h0A, h0C, h0D, hlt]
      rw [hesc] at h ⊢
      cases fuel with
      | zero => simp at h
      | succ f =>
        have hlen : (escBytes s ++ 0x22 :: r).length ≤ f := by
          simp only [List.cons_append, List.nil_append, List.length_cons, List.length_append] at h ⊢
          omega
        simp [parseStrF, h22, h5C, ih f r hlen]

theorem expectLit_append (p l : List Nat) : expectLit p (p ++ l) = some l := by
  induction p with
  | nil => rfl
  | cons a p ih => simp [expectLit, ih]

theorem skipWs_all (t : List Nat) (h : ∀ b ∈ t, isWsB b = true) : skipWs t = [] := by
  induction t with
  | nil => rfl
  | cons b l ih =>
    simp only [skipWs, h b (List.mem_cons_self b l), if_true]
    exact ih fun x hx => h x (List.mem_cons_of_mem b hx)

theorem skipWs_setLit (x : List Nat) : skipWs (setLitB ++ x) = setLitB ++ x := rfl

theorem skipWs_remLit (x : List Nat) : skipWs (remLitB ++ x) = remLitB ++ x := rfl

theorem expectLit_setLit_remLit (x : List Nat) : expectLit setLitB (remLitB ++ x) = none := rfl

theorem parseStr_escBytes (s r : List Nat) :
    parseStr (escBytes s ++ 0x22 :: r) = some (s, r) :=
  parseStrF_escBytes s (escBytes s ++ 0x22 :: r).length r (le_refl _)

theorem decode_encode_append (c : Command) (t : List Nat) (h : ∀ b ∈ t, isWsB b = true) :
    decode (encode c ++ t) = some c := by
  have hws := skipWs_all t h
  cases c with
  | set k v =>
    have h1 : encode (Command.set k v) ++ t
        = setLitB ++ (escBytes k ++ 0x22 ::
            (valSepB ++ (escBytes v ++ 0x22 :: (closeBB ++ t)))) := by
      simp [encode, List.append_assoc]
    rw [h1]
    simp only [decode, skipWs_setLit, expectLit_append, parseStr_escBytes, hws]
    simp
  | remove k =>
    have h1 : encode (Command.remove k) ++ t
        = remLitB ++ (escBytes k ++ 0x22 :: (closeBB ++ t)) := by
      simp [encode, List.append_assoc]
    rw [h1]
    simp only [decode, skipWs_remLit, expectLit_setLit_remLit, expectLit_append,
      parseStr_escBytes, hws]
    simp

theorem decode_encode (c : Command) : decode (encode c) = some c := by
  have := decode_encode_append c [] (by simp)
  simpa using this

theorem decode_encLine (c : Command) : decode (encLine c) = some c :=
  decode_encode_append c [0x0A] (by decide)

/-! ### Replay lemmas: `loadLoop` on well-formed log bytes -/

theorem logBytes_cons (c : Command) (cs : List Command) :
    logBytes (c :: cs) = encLine c ++ logBytes cs := by
  simp [logBytes]

theorem logBytes_append (cs ds : List Command) :
    logBytes (cs ++ ds) = logBytes cs ++ logBytes ds := by
  simp [logBytes]

theorem loadLoop_nil (idx : Index) (gen pos : Nat) : loadLoop idx gen [] pos = .ok idx := by
  rw [loadLoop]

theorem encode_head (c : Command) : ∃ tl, encode c = 0x7B :: tl := by
  cases c <;> exact ⟨_, rfl⟩

theorem loadLoop_encLine (idx : Index) (gen pos : Nat) (c : Command) (tail : List Nat) :
    loadLoop idx gen (encLine c ++ tail) pos
      = loadLoop (applyRec gen idx c pos) gen tail (pos + (encLine c).length) := by
  obtain ⟨tl, htl⟩ := encode_head c
  have hline : takeLine (encLine c ++ tail) = encLine c := takeLine_encLine c tail
  have hdrop : (encLine c ++ tail).drop (encLine c).length = tail := List.drop_left _ _
  have hcons : encLine c ++ tail = 0x7B :: (tl ++ [0x0A] ++ tail) := by
    simp [encLine, htl, List.append_assoc]
  rw [hcons] at hline hdrop ⊢
  rw [loadLoop]
  simp only [hline, decode_encLine]
  cases c with
  | set k v => simp only [applyRec, hdrop]
  | remove k => simp only [applyRec, hdrop]

theorem loadLoop_logBytes (gen : Nat) (cs : List Command) :
    ∀ (idx : Index) (pos : Nat) (tail : List Nat),
    loadLoop idx gen (logBytes cs ++ tail) pos
      = loadLoop (replayCmds gen idx cs pos) gen tail (pos + (logBytes cs).length) := by
  induction cs with
  | nil =>
    intro idx pos tail
    simp [logBytes, replayCmds]
  | cons c cs ih =>
    intro idx pos tail
    rw [logBytes_cons, List.append_assoc, loadLoop_encLine,
      ih (applyRec gen idx c pos) (pos + (encLine c).length) tail]
    have : pos + (encLine c).length + (logBytes cs).length
        = pos + (encLine c ++ logBytes cs).length := by
      simp [List.length_append]
      omega
    rw [replayCmds, this]

theorem loadLoop_logBytes_ok (gen : Nat) (cs : List Command) (idx : Index) (pos : Nat) :
    loadLoop idx gen (logBytes cs) pos = .ok (replayCmds gen idx cs pos) := by
  have := loadLoop_logBytes gen cs idx pos []
  simpa [loadLoop_nil] using this

theorem replayCmds_append (gen : Nat) (cs ds : List Command) :
    ∀ (idx : Index) (pos : Nat),
    replayCmds gen idx (cs ++ ds) pos
      = replayCmds gen (replayCmds gen idx cs pos) ds (pos + (logBytes cs).length) := by
  induction cs with
  | nil =>
    intro idx pos
    simp [replayCmds, logBytes]
  | cons c cs ih =>
    intro idx pos
    rw [List.cons_append, replayCmds, replayCmds, ih]
    congr 1
    rw [logBytes_cons]
    simp [List.length_append]
    omega

/-! ### `loadGens` lemmas -/

theorem loadGens_congr (d d' : Dir) (gs : List Nat)
    (h : ∀ g ∈ gs, findFile d g = findFile d' g) :
    ∀ idx, loadGens d gs idx = loadGens d' gs idx := by
  induction gs with
  | nil => intro idx; rfl
  | cons g gs ih =>
    intro idx
    have hg : findFile d g = findFile d' g := h g (List.mem_cons_self g gs)
    have hrest : ∀ g' ∈ gs, findFile d g' = findFile d' g' :=
      fun g' hg' => h g' (List.mem_cons_of_mem g hg')
    simp only [loadGens, hg]
    cases loadLoop idx g (findFile d' g) 0 with
    | error e => rfl
    | ok idx' => exact ih hrest idx'

theorem loadGens_append (d : Dir) (gs gs' : List Nat) :
    ∀ idx, loadGens d (gs ++ gs') idx
      = match loadGens d gs idx with
        | .error e => .error e
        | .ok i => loadGens d gs' i := by
  induction gs with
  | nil => intro idx; rfl
  | cons g gs ih =>
    intro idx
    simp only [List.cons_append, loadGens]
    cases loadLoop idx g (findFile d g) 0 with
    | error e => rfl
    | ok idx' => exact ih idx'

/-! ### Sorting lemmas -/

theorem sorted_le_getLast (l : List Nat) (hs : List.Pairwise (· ≤ ·) l) (x : Nat)
    (hx : x ∈ l) (h : l ≠ []) : x ≤ l.getLast h := by
  induction l with
  | nil => exact absurd rfl h
  | cons a l ih =>
    cases l with
    | nil =>
      simp at hx
      simp [hx]
    | cons b l' =>
      rcases List.mem_cons.mp hx with hxa | hxm
      · subst hxa
        have hle : x ≤ (b :: l').getLast (by simp) := by
          have hb : ∀ y ∈ b :: l', x ≤ y := (List.pairwise_cons.mp hs).1
          exact hb _ (List.getLast_mem _)
        simpa [List.getLast_cons] using hle
      · have hs' := (List.pairwise_cons.mp hs).2
        have := ih hs' hxm (by simp)
        simpa [List.getLast_cons] using this

theorem le_foldr_max (l : List Nat) (g : Nat) (h : g ∈ l) : g ≤ l.foldr max 0 := by
  induction l with
  | nil => simp at h
  | cons a l ih =>
    rcases List.mem_cons.mp h with rfl | hm
    · simp [List.foldr_cons]
    · have := ih hm
      simp [List.foldr_cons]
      omega

theorem foldr_max_mem (l : List Nat) (h : l ≠ []) : l.foldr max 0 ∈ l := by
  induction l with
  | nil => exact absurd rfl h
  | cons a l ih =>
    cases l with
    | nil => simp
    | cons b l' =>
      have hm := ih (by simp)
      rw [List.foldr_cons]
      rcases Nat.le_total a (List.foldr max 0 (b :: l')) with hle | hle
      · rw [Nat.max_eq_right hle]
        exact List.mem_cons_of_mem a hm
      · rw [Nat.max_eq_left hle]
        exact List.mem_cons_self a _

theorem maxGen_ge (dir : Dir) (g : Nat) (h : g ∈ dir.map Prod.fst) : g ≤ maxGen dir :=
  le_foldr_max _ g h

theorem maxGen_mem (dir : Dir) (h : dir.map Prod.fst ≠ []) :
    maxGen dir ∈ dir.map Prod.fst :=
  foldr_max_mem _ h

theorem sortedLogGenerations_perm (dir : Dir) :
    (sortedLogGenerations dir).Perm (dir.map Prod.fst) :=
  List.perm_insertionSort _ _

theorem mem_sortedLogGenerations (dir : Dir) (g : Nat) :
    g ∈ sortedLogGenerations dir ↔ g ∈ dir.map Prod.fst :=
  (sortedLogGenerations_perm dir).mem_iff

theorem sortedLogGenerations_getLast (dir : Dir) :
    (sortedLogGenerations dir).getLast?.getD 0 = maxGen dir := by
  cases hk : dir.map Prod.fst with
  | nil =>
    have : sortedLogGenerations dir = [] := by
      have := sortedLogGenerations_perm dir
      rw [hk] at this
      exact this.eq_nil
    simp [this, maxGen, hk]
  | cons a l =>
    have hne : sortedLogGenerations dir ≠ [] := by
      intro hnil
      have := sortedLogGenerations_perm dir
      rw [hnil, hk] at this
      exact absurd this.symm.eq_nil (by simp)
    have hsorted : List.Pairwise (· ≤ ·) (sortedLogGenerations dir) :=
      List.sorted_insertionSort _ _
    have hlast_mem : (sortedLogGenerations dir).getLast hne ∈ dir.map Prod.fst := by
      rw [← mem_sortedLogGenerations]
      exact List.getLast_mem hne
    have hmax_mem : maxGen dir ∈ sortedLogGenerations dir := by
      rw [mem_sortedLogGenerations]
      exact maxGen_mem dir (by simp [hk])
    have h1 : maxGen dir ≤ (sortedLogGenerations dir).getLast hne :=
      sorted_le_getLast _ hsorted _ hmax_mem hne
    have h2 : (sortedLogGenerations dir).getLast hne ≤ maxGen dir :=
      maxGen_ge dir _ hlast_mem
    rw [List.getLast?_eq_getLast _ hne]
    simp [Nat.le_antisymm h2 h1]

theorem sortedLogGenerations_decomp (dir : Dir) (a : Nat)
    (hnd : (dir.map Prod.fst).Nodup) (ha : a ∈ dir.map Prod.fst)
    (hmax : ∀ x ∈ dir.map Prod.fst, x ≤ a) :
    ∃ gs, sortedLogGenerations dir = gs ++ [a] ∧ a ∉ gs := by
  set m := sortedLogGenerations dir with hm
  have hperm : m.Perm (dir.map Prod.fst) := sortedLogGenerations_perm dir
  have hnd' : m.Nodup := hperm.symm.nodup hnd
  have ham : a ∈ m := hperm.mem_iff.mpr ha
  have hne : m ≠ [] := by
    intro hnil
    rw [hnil] at ham
    simp at ham
  have hsorted : List.Pairwise (· ≤ ·) m := List.sorted_insertionSort _ _
  have hlast : m.getLast hne = a := by
    have h1 : a ≤ m.getLast hne := sorted_le_getLast m hsorted a ham hne
    have h2 : m.getLast hne ≤ a := hmax _ (hperm.mem_iff.mp (List.getLast_mem hne))
    exact Nat.le_antisymm h2 h1
  refine ⟨m.dropLast, ?_, ?_⟩
  · rw [← hlast]
    exact (List.dropLast_append_getLast hne).symm
  · intro hmem
    have hdecomp : m = m.dropLast ++ [a] := by
      rw [← hlast]
      exact (List.dropLast_append_getLast hne).symm
    rw [hdecomp] at hnd'
    rcases List.nodup_append.mp hnd' with ⟨-, -, hdisj⟩
    exact hdisj hmem (by simp)

/-! ### Pointers produced by replay -/

theorem loadLoop_ptrs (idx : Index) (gen : Nat) (rest : List Nat) (pos : Nat) :
    ∀ (i : Index) (f : List Nat),
    loadLoop idx gen rest pos = .ok i →
    rest = f.drop pos → pos ≤ f.length →
    ∀ k sec, lookupA i k = some sec →
      lookupA idx k = some sec ∨
      (sec.gen = gen ∧ sec.start + sec.length ≤ f.length ∧
        sec.length = (takeLine (f.drop sec.start)).length ∧
        ∃ v, decode ((f.drop sec.start).take sec.length) = some (Command.set k v)) := by
  induction idx, gen, rest, pos using loadLoop.induct with
  | case1 idx gen pos =>
    intro i f hok _ _ k sec hlk
    rw [loadLoop_nil] at hok
    cases hok
    exact Or.inl hlk
  | case2 idx gen pos b rest' line hdec =>
    intro i f hok _ _ k sec hlk
    rw [loadLoop] at hok
    have hline : line = takeLine (b :: rest') := rfl
    rw [hline] at hdec
    simp only [hdec] at hok
    exact Except.noConfusion hok
  | case3 idx gen pos b rest' line key v hdec ih =>
    intro i f hok hrest hpos k sec hlk
    rw [loadLoop] at hok
    have hline : line = takeLine (b :: rest') := rfl
    rw [hline] at hdec ih
    simp only [hdec] at hok
    have hrest' : (b :: rest').drop (takeLine (b :: rest')).length
        = f.drop (pos + (takeLine (b :: rest')).length) := by
      rw [hrest, List.drop_drop]
    have hlenle : (takeLine (b :: rest')).length ≤ (b :: rest').length :=
      takeLine_length_le _
    have hpos' : pos + (takeLine (b :: rest')).length ≤ f.length := by
      have hb : (b :: rest').length = f.length - pos := by
        rw [hrest, List.length_drop]
      omega
    rcases ih i f hok hrest' hpos' k sec hlk with hin | hnew
    · by_cases hk : k = key
      · subst hk
        rw [lookupA_insertA_self] at hin
        cases hin
        refine Or.inr ⟨rfl, ?_, ?_, ⟨v, ?_⟩⟩
        · simpa using hpos'
        · simp only [← hrest]
        · simp only [← hrest]
          rw [takeLine_eq_take]
          exact hdec
      · rw [lookupA_insertA_ne _ _ _ _ hk] at hin
        exact Or.inl hin
    · exact Or.inr hnew
  | case4 idx gen pos b rest' line key hdec ih =>
    intro i f hok hrest hpos k sec hlk
    rw [loadLoop] at hok
    have hline : line = takeLine (b :: rest') := rfl
    rw [hline] at hdec ih
    simp only [hdec] at hok
    have hrest' : (b :: rest').drop (takeLine (b :: rest')).length
        = f.drop (pos + (takeLine (b :: rest')).length) := by
      rw [hrest, List.drop_drop]
    have hlenle : (takeLine (b :: rest')).length ≤ (b :: rest').length :=
      takeLine_length_le _
    have hpos' : pos + (takeLine (b :: rest')).length ≤ f.length := by
      have hb : (b :: rest').length = f.length - pos := by
        rw [hrest, List.length_drop]
      omega
    rcases ih i f hok hrest' hpos' k sec hlk with hin | hnew
    · by_cases hk : k = key
      · subst hk
        rw [lookupA_eraseA_self] at hin
        cases hin
      · rw [lookupA_eraseA_ne _ _ _ hk] at hin
        exact Or.inl hin
    · exact Or.inr hnew

theorem mem_keys_of_lookupA {α β : Type} [DecidableEq α] (l : List (α × β)) (k : α) (v : β)
    (h : lookupA l k = some v) : k ∈ l.map Prod.fst := by
  by_contra hmem
  rw [(lookupA_eq_none_iff l k).mpr hmem] at h
  cases h

theorem loadGens_ptrs (dir : Dir) (gs : List Nat) :
    ∀ (idx i : Index),
    loadGens dir gs idx = .ok i →
    (∀ g ∈ gs, g ∈ dir.map Prod.fst) →
    (∀ k sec, lookupA idx k = some sec → PtrGood dir k sec) →
    ∀ k sec, lookupA i k = some sec → PtrGood dir k sec := by
  induction gs with
  | nil =>
    intro idx i hok _ hidx k sec hlk
    cases hok
    exact hidx k sec hlk
  | cons g gs ih =>
    intro idx i hok hmem hidx k sec hlk
    simp only [loadGens] at hok
    cases hload : loadLoop idx g (findFile dir g) 0 with
    | error e =>
      rw [hload] at hok
      cases hok
    | ok idx' =>
      rw [hload] at hok
      refine ih idx' i hok (fun g' hg' => hmem g' (List.mem_cons_of_mem g hg')) ?_ k sec hlk
      intro k' sec' hlk'
      obtain ⟨fg, hfg⟩ := lookupA_isSome_of_mem_keys dir g (hmem g (List.mem_cons_self g gs))
      have hfind : findFile dir g = fg := by
        simp [findFile, hfg]
      rcases loadLoop_ptrs idx g (findFile dir g) 0 idx' fg hload
          (by rw [hfind]; simp) (by omega) k' sec' hlk' with hin | hnew
      · exact hidx k' sec' hin
      · obtain ⟨hgen, hrange, _, v, hdec⟩ := hnew
        exact ⟨fg, v, by rw [hgen]; exact hfg, hrange, hdec⟩

/-! ### `open` establishes the invariant -/

theorem sortedLogGenerations_snoc (dir0 : Dir) (c : Nat)
    (hle : ∀ x ∈ dir0.map Prod.fst, x ≤ c) :
    sortedLogGenerations (dir0 ++ [(c, [])]) = sortedLogGenerations dir0 ++ [c] := by
  apply List.eq_of_perm_of_sorted (r := (· ≤ ·))
  · have h1 : (sortedLogGenerations (dir0 ++ [(c, [])])).Perm
        (dir0.map Prod.fst ++ [c]) := by
      have := sortedLogGenerations_perm (dir0 ++ [(c, [])])
      simpa using this
    have h2 : (dir0.map Prod.fst ++ [c]).Perm (sortedLogGenerations dir0 ++ [c]) :=
      (sortedLogGenerations_perm dir0).symm.append_right [c]
    exact h1.trans h2
  · exact List.sorted_insertionSort _ _
  · refine List.pairwise_append.mpr ⟨List.sorted_insertionSort _ _, by simp, ?_⟩
    intro x hx y hy
    rcases List.mem_singleton.mp hy with rfl
    exact hle x ((mem_sortedLogGenerations dir0 x).mp hx)

theorem open_fields (dir0 : Dir) (e : KvStore) (h : KvStore.open dir0 = .ok e) :
    e.gen = maxGen dir0 + 1 ∧ e.dir = ensureFile dir0 (maxGen dir0 + 1) ∧
    loadGens dir0 (sortedLogGenerations dir0) [] = .ok e.map ∧
    e.writerPos = (findFile e.dir e.gen).length := by
  simp only [KvStore.open] at h
  cases hload : loadGens dir0 (sortedLogGenerations dir0) [] with
  | error err =>
    rw [hload] at h
    exact Except.noConfusion h
  | ok index =>
    rw [hload] at h
    cases h
    have hcur : (sortedLogGenerations dir0).getLast?.getD 0 + 1 = maxGen dir0 + 1 := by
      rw [sortedLogGenerations_getLast]
    refine ⟨hcur, by rw [hcur], rfl, by rw [hcur]⟩

theorem open_goodState (dir0 : Dir) (hnd : (dir0.map Prod.fst).Nodup) (e : KvStore)
    (h : KvStore.open dir0 = .ok e) :
    GoodState e ∧ e.gen = maxGen dir0 + 1 ∧ e.dir = dir0 ++ [(e.gen, [])] := by
  obtain ⟨hgen, hdir, hload, hwp⟩ := open_fields dir0 e h
  have hcnot : (maxGen dir0 + 1) ∉ dir0.map Prod.fst := by
    intro hmem
    have := maxGen_ge dir0 _ hmem
    omega
  have hdir' : e.dir = dir0 ++ [(maxGen dir0 + 1, [])] := by
    rw [hdir]
    unfold ensureFile
    rw [(lookupA_eq_none_iff _ _).mpr hcnot]
  have hkeys : e.dir.map Prod.fst = dir0.map Prod.fst ++ [maxGen dir0 + 1] := by
    rw [hdir']
    simp
  have hlookc : lookupA e.dir (maxGen dir0 + 1) = some [] := by
    rw [hdir', lookupA_append_right _ _ _ hcnot]
    simp [lookupA]
  have hwp0 : e.writerPos = 0 := by
    rw [hwp, hgen]
    simp [findFile, hlookc]
  have hsorted_eq : sortedLogGenerations e.dir
      = sortedLogGenerations dir0 ++ [maxGen dir0 + 1] := by
    rw [hdir']
    exact sortedLogGenerations_snoc dir0 _
      (fun x hx => by have := maxGen_ge dir0 x hx; omega)
  refine ⟨⟨?_, ?_, ?_, ?_, ?_⟩, hgen, by rw [hgen]; exact hdir'⟩
  · refine ⟨[], ?_, ?_⟩
    · rw [hgen]
      exact hlookc
    · simp [logBytes, hwp0]
  · rw [hkeys, List.nodup_append]
    refine ⟨hnd, by simp, ?_⟩
    intro x hx hc
    rcases List.mem_singleton.mp hc with rfl
    exact hcnot hx
  · intro g hg
    rw [hkeys] at hg
    rw [hgen]
    rcases List.mem_append.mp hg with h1 | h2
    · have := maxGen_ge dir0 g h1
      omega
    · rcases List.mem_singleton.mp h2 with rfl
      omega
  · rw [hsorted_eq, loadGens_append]
    have hcongr : loadGens e.dir (sortedLogGenerations dir0) []
        = loadGens dir0 (sortedLogGenerations dir0) [] := by
      apply loadGens_congr
      intro g hg
      have hgm := (mem_sortedLogGenerations dir0 g).mp hg
      obtain ⟨fg, hfg⟩ := lookupA_isSome_of_mem_keys dir0 g hgm
      rw [hdir']
      unfold findFile
      rw [lookupA_append_left _ _ _ _ hfg, hfg]
    rw [hcongr, hload]
    simp only [loadGens, findFile, hlookc, Option.getD_some, loadLoop_nil]
  · intro k sec hlk
    have hptr0 : PtrGood dir0 k sec := by
      refine loadGens_ptrs dir0 (sortedLogGenerations dir0) [] e.map hload
        (fun g hg => (mem_sortedLogGenerations dir0 g).mp hg) ?_ k sec hlk
      intro k' sec' hl
      exact Option.noConfusion hl
    obtain ⟨f, v, hf, hrange, hdec⟩ := hptr0
    refine ⟨f, v, ?_, hrange, hdec⟩
    rw [hdir']
    exact lookupA_append_left _ _ _ _ hf

/-! ### Mutations preserve the invariant -/

theorem slice_append (f e : List Nat) (st len : Nat) (h : st + len ≤ f.length) :
    ((f ++ e).drop st).take len = (f.drop st).take len := by
  rw [List.drop_append_of_le_length (by omega),
    List.take_append_of_le_length (by simp [List.length_drop]; omega)]

theorem ptrGood_appendToFile (dir : Dir) (g : Nat) (bytes : List Nat) (k : List Nat)
    (sec : LogSection) (hp : PtrGood dir k sec) : PtrGood (appendToFile dir g bytes) k sec := by
  obtain ⟨f, v, hf, hrange, hdec⟩ := hp
  by_cases hg : sec.gen = g
  · refine ⟨f ++ bytes, v, ?_, ?_, ?_⟩
    · rw [hg]
      rw [hg] at hf
      exact lookupA_appendToFile_self _ _ _ _ hf
    · simp only [List.length_append]
      omega
    · rw [slice_append f bytes sec.start sec.length hrange]
      exact hdec
  · exact ⟨f, v, by rw [lookupA_appendToFile_ne _ _ _ _ hg]; exact hf, hrange, hdec⟩

theorem goodState_decomp (s : KvStore) (hs : GoodState s) :
    ∃ cs gs i0,
      lookupA s.dir s.gen = some (logBytes cs) ∧ (logBytes cs).length = s.writerPos ∧
      sortedLogGenerations s.dir = gs ++ [s.gen] ∧ s.gen ∉ gs ∧
      loadGens s.dir gs [] = .ok i0 ∧
      s.map = replayCmds s.gen i0 cs 0 := by
  obtain ⟨⟨cs, hcs, hlen⟩, hnd, hle, hload, _⟩ := hs
  have hmem : s.gen ∈ s.dir.map Prod.fst := mem_keys_of_lookupA _ _ _ hcs
  obtain ⟨gs, hdecomp, hnotgs⟩ := sortedLogGenerations_decomp s.dir s.gen hnd hmem hle
  rw [hdecomp, loadGens_append] at hload
  cases hi0 : loadGens s.dir gs [] with
  | error err =>
    rw [hi0] at hload
    exact Except.noConfusion hload
  | ok i0 =>
    rw [hi0] at hload
    have hfind : findFile s.dir s.gen = logBytes cs := by
      simp [findFile, hcs]
    simp only [loadGens, hfind, loadLoop_logBytes_ok, Except.ok.injEq] at hload
    exact ⟨cs, gs, i0, hcs, hlen, hdecomp, hnotgs, hi0, hload.symm⟩

theorem goodState_mutate (s : KvStore) (hs : GoodState s) (c : Command) :
    GoodState { gen := s.gen, map := applyRec s.gen s.map c s.writerPos,
                writerPos := s.writerPos + (encLine c).length,
                dir := appendToFile s.dir s.gen (encLine c) } := by
  obtain ⟨cs, gs, i0, hcs, hlen, hdecomp, hnotgs, hi0, hmap⟩ := goodState_decomp s hs
  obtain ⟨-, hnd, hle, -, hptr⟩ := hs
  have hkeys : (appendToFile s.dir s.gen (encLine c)).map Prod.fst = s.dir.map Prod.fst :=
    map_fst_appendToFile _ _ _
  have hcs' : lookupA (appendToFile s.dir s.gen (encLine c)) s.gen
      = some (logBytes (cs ++ [c])) := by
    rw [lookupA_appendToFile_self _ _ _ _ hcs, logBytes_append]
    simp [logBytes]
  have hsingle : logBytes [c] = encLine c := by
    simp [logBytes]
  refine ⟨⟨cs ++ [c], hcs', ?_⟩, ?_, ?_, ?_, ?_⟩
  · rw [logBytes_append, hsingle, List.length_append, hlen]
  · rw [hkeys]
    exact hnd
  · intro g hg
    rw [hkeys] at hg
    exact hle g hg
  · have hsort' : sortedLogGenerations (appendToFile s.dir s.gen (encLine c))
        = gs ++ [s.gen] := by
      unfold sortedLogGenerations
      rw [hkeys]
      exact hdecomp
    rw [hsort', loadGens_append]
    have hcongr : loadGens (appendToFile s.dir s.gen (encLine c)) gs []
        = loadGens s.dir gs [] := by
      apply loadGens_congr
      intro g hg
      have hne : g ≠ s.gen := fun hgg => hnotgs (hgg ▸ hg)
      unfold findFile
      rw [lookupA_appendToFile_ne _ _ _ _ hne]
    rw [hcongr, hi0]
    have hfind' : findFile (appendToFile s.dir s.gen (encLine c)) s.gen
        = logBytes (cs ++ [c]) := by
      simp [findFile, hcs']
    simp only [loadGens, hfind', loadLoop_logBytes_ok]
    rw [replayCmds_append]
    simp only [Nat.zero_add, hlen, ← hmap]
    rfl
  · intro k sec hlk
    cases c with
    | set k0 v0 =>
      simp only [applyRec] at hlk
      by_cases hk : k = k0
      · subst hk
        rw [lookupA_insertA_self] at hlk
        cases hlk
        refine ⟨logBytes (cs ++ [Command.set k v0]), v0, hcs', ?_, ?_⟩
        · rw [logBytes_append, hsingle, List.length_append, hlen]
        · rw [logBytes_append, hsingle]
          show decode (((logBytes cs ++ encLine (Command.set k v0)).drop s.writerPos).take
            (encLine (Command.set k v0)).length) = _
          rw [← hlen, List.drop_left, List.take_length]
          exact decode_encLine _
      · rw [lookupA_insertA_ne _ _ _ _ hk] at hlk
        exact ptrGood_appendToFile _ _ _ _ _ (hptr k sec hlk)
    | remove k0 =>
      simp only [applyRec] at hlk
      by_cases hk : k = k0
      · subst hk
        rw [lookupA_eraseA_self] at hlk
        exact Option.noConfusion hlk
      · rw [lookupA_eraseA_ne _ _ _ hk] at hlk
        exact ptrGood_appendToFile _ _ _ _ _ (hptr k sec hlk)

theorem set_fields (s : KvStore) (k v : List Nat) :
    s.set k v = { gen := s.gen,
                  map := applyRec s.gen s.map (Command.set k v) s.writerPos,
                  writerPos := s.writerPos + (encLine (Command.set k v)).length,
                  dir := appendToFile s.dir s.gen (encLine (Command.set k v)) } := by
  simp [KvStore.set, applyRec]

theorem remove_fields (s : KvStore) (k : List Nat) (sec : LogSection)
    (h : lookupA s.map k = some sec) :
    s.remove k = ({ gen := s.gen,
                    map := applyRec s.gen s.map (Command.remove k) s.writerPos,
                    writerPos := s.writerPos + (encLine (Command.remove k)).length,
                    dir := appendToFile s.dir s.gen (encLine (Command.remove k)) }, .ok ()) := by
  simp [KvStore.remove, h, applyRec]

theorem remove_absent_eq (s : KvStore) (k : List Nat) (h : lookupA s.map k = none) :
    s.remove k = (s, .error .keyNotFound) := by
  simp [KvStore.remove, h]

theorem goodState_set (s : KvStore) (hs : GoodState s) (k v : List Nat) :
    GoodState (s.set k v) := by
  rw [set_fields]
  exact goodState_mutate s hs (Command.set k v)

theorem goodState_remove (s : KvStore) (hs : GoodState s) (k : List Nat) :
    GoodState (s.remove k).1 := by
  cases hlk : lookupA s.map k with
  | none =>
    rw [remove_absent_eq s k hlk]
    exact hs
  | some sec =>
    rw [remove_fields s k sec hlk]
    exact goodState_mutate s hs (Command.remove k)

theorem goodState_step (s : KvStore) (hs : GoodState s) (op : Op) :
    GoodState (s.step op) := by
  cases op with
  | set k v => exact goodState_set s hs k v
  | remove k => exact goodState_remove s hs k
  | get k => exact hs

theorem goodState_steps (s : KvStore) (hs : GoodState s) (ops : List Op) :
    GoodState (s.steps ops) := by
  induction ops generalizing s with
  | nil => exact hs
  | cons op ops ih => exact ih (s.step op) (goodState_step s hs op)

/-! ### Lookup-level behaviour of `get` -/

theorem get_none_of_absent (s : KvStore) (k : List Nat) (h : lookupA s.map k = none) :
    s.get k = .ok none := by
  simp [KvStore.get, h]

theorem get_after_set (s : KvStore) (hs : GoodState s) (k v : List Nat) :
    (s.set k v).get k = .ok (some v) := by
  obtain ⟨cs, gs, i0, hcs, hlen, -, -, -, -⟩ := goodState_decomp s hs
  rw [set_fields]
  have hcs' : lookupA (appendToFile s.dir s.gen (encLine (Command.set k v))) s.gen
      = some (logBytes cs ++ encLine (Command.set k v)) :=
    lookupA_appendToFile_self _ _ _ _ hcs
  unfold KvStore.get
  simp only [applyRec, lookupA_insertA_self, hcs']
  rw [if_pos (by simp only [List.length_append]; omega)]
  rw [show s.writerPos = (logBytes cs).length from hlen.symm]
  rw [List.drop_left, List.take_length, decode_encLine]

theorem get_eq_of_dir_append (s : KvStore) (hs : GoodState s) (k : List Nat)
    (g : Nat) (bytes : List Nat) (s' : KvStore)
    (hmap : lookupA s'.map k = lookupA s.map k)
    (hdir : s'.dir = appendToFile s.dir g bytes) :
    s'.get k = s.get k := by
  obtain ⟨-, -, -, -, hptr⟩ := hs
  unfold KvStore.get
  rw [hmap, hdir]
  cases hlk : lookupA s.map k with
  | none => rfl
  | some sec =>
    dsimp only
    obtain ⟨f, v, hf, hrange, hdec⟩ := hptr k sec hlk
    by_cases hg : sec.gen = g
    · have hf' : lookupA (appendToFile s.dir g bytes) sec.gen = some (f ++ bytes) := by
        rw [hg]
        rw [hg] at hf
        exact lookupA_appendToFile_self _ _ _ _ hf
      rw [hf', hf]
      dsimp only
      rw [if_pos (show sec.start + sec.length ≤ (f ++ bytes).length by
            simp only [List.length_append]; omega), if_pos hrange]
      rw [slice_append f bytes sec.start sec.length hrange]
    · rw [lookupA_appendToFile_ne _ _ _ _ hg]

/-! ### Reopening a well-formed state reproduces every lookup -/

theorem reopen (s : KvStore) (hs : GoodState s) :
    ∃ e2, KvStore.open s.dir = .ok e2 ∧ ∀ k, e2.get k = s.get k := by
  obtain ⟨-, -, -, hload, hptr⟩ := hs
  have hcnot : maxGen s.dir + 1 ∉ s.dir.map Prod.fst := by
    intro hmem
    have := maxGen_ge s.dir _ hmem
    omega
  have hnone : lookupA s.dir (maxGen s.dir + 1) = none :=
    (lookupA_eq_none_iff _ _).mpr hcnot
  have hdir2 : ensureFile s.dir (maxGen s.dir + 1) = s.dir ++ [(maxGen s.dir + 1, [])] := by
    unfold ensureFile
    rw [hnone]
  have hlookc : lookupA (s.dir ++ [(maxGen s.dir + 1, [])]) (maxGen s.dir + 1) = some [] := by
    rw [lookupA_append_right _ _ _ hcnot]
    simp [lookupA]
  refine ⟨{ gen := maxGen s.dir + 1, map := s.map, writerPos := 0,
            dir := s.dir ++ [(maxGen s.dir + 1, [])] }, ?_, ?_⟩
  · simp only [KvStore.open, hload, sortedLogGenerations_getLast, hdir2, Except.ok.injEq,
      KvStore.mk.injEq]
    simp [findFile, hlookc]
  · intro k
    unfold KvStore.get
    dsimp only
    cases hlk : lookupA s.map k with
    | none => rfl
    | some sec =>
      dsimp only
      obtain ⟨f, v, hf, hrange, hdec⟩ := hptr k sec hlk
      have hf2 : lookupA (s.dir ++ [(maxGen s.dir + 1, [])]) sec.gen = some f :=
        lookupA_append_left _ _ _ _ hf
      rw [hf2, hf]

/-! ### Helpers for the claims -/

theorem lww_general (k : List Nat) (vs : List (List Nat)) :
    ∀ (s : KvStore), GoodState s → ∀ (h : vs ≠ []),
    (vs.foldl (fun t v => t.set k v) s).get k = .ok (some (vs.getLast h)) := by
  induction vs with
  | nil =>
    intro s _ h
    exact absurd rfl h
  | cons v vs ih =>
    intro s hs h
    cases vs with
    | nil => simpa using get_after_set s hs k v
    | cons v2 vs2 =>
      rw [List.foldl_cons, List.getLast_cons (by simp)]
      exact ih (s.set k v) (goodState_set s hs k v) (by simp)

theorem open_nil : KvStore.open ([] : Dir) = .ok st0 := rfl

theorem goodState_st0 : GoodState st0 := by
  refine ⟨⟨[], rfl, rfl⟩, by decide, ?_, ?_, ?_⟩
  · intro g hg
    simp [st0] at hg
    simp [st0, hg]
  · show loadGens st0.dir (sortedLogGenerations st0.dir) [] = .ok st0.map
    have h1 : sortedLogGenerations st0.dir = [1] := rfl
    rw [h1]
    simp only [loadGens, show findFile st0.dir 1 = [] from rfl, loadLoop_nil]
    rfl
  · intro k sec h
    exact Option.noConfusion h

theorem keys_step (s : KvStore) (op : Op) :
    ((s.step op).dir).map Prod.fst = s.dir.map Prod.fst := by
  cases op with
  | set k v =>
    show ((s.set k v).dir).map Prod.fst = _
    rw [set_fields]
    exact map_fst_appendToFile _ _ _
  | remove k =>
    cases hlk : lookupA s.map k with
    | none =>
      show (((s.remove k).1).dir).map Prod.fst = _
      rw [remove_absent_eq s k hlk]
    | some sec =>
      show (((s.remove k).1).dir).map Prod.fst = _
      rw [remove_fields s k sec hlk]
      exact map_fst_appendToFile _ _ _
  | get k => rfl

theorem keys_steps (s : KvStore) (ops : List Op) :
    ((s.steps ops).dir).map Prod.fst = s.dir.map Prod.fst := by
  induction ops generalizing s with
  | nil => rfl
  | cons op ops ih =>
    show ((KvStore.steps (s.step op) ops).dir).map Prod.fst = _
    rw [ih (s.step op), keys_step]

theorem foldr_max_init (l : List Nat) (a : Nat) :
    List.foldr max a l = max (List.foldr max 0 l) a := by
  induction l with
  | nil => simp
  | cons b l ih =>
    simp only [List.foldr_cons, ih]
    exact (Nat.max_assoc b (List.foldr max 0 l) a).symm

theorem maxGen_snoc (dir0 : Dir) (c : Nat) (f : List Nat) :
    maxGen (dir0 ++ [(c, f)]) = max (maxGen dir0) c := by
  unfold maxGen
  rw [List.map_append, List.foldr_append]
  simp only [List.map_cons, List.map_nil, List.foldr_cons, List.foldr_nil]
  rw [foldr_max_init]
  rw [Nat.max_zero]

theorem set_then_remove (s : KvStore) (k v : List Nat) :
    ((s.set k v).remove k).2 = .ok () ∧ (((s.set k v).remove k).1).get k = .ok none := by
  have hlk : lookupA (s.set k v).map k
      = some ⟨s.gen, s.writerPos, (encLine (Command.set k v)).length⟩ := by
    rw [set_fields]
    simp only [applyRec]
    exact lookupA_insertA_self _ _ _
  rw [remove_fields (s.set k v) k
    ⟨s.gen, s.writerPos, (encLine (Command.set k v)).length⟩ hlk]
  refine ⟨rfl, get_none_of_absent _ _ ?_⟩
  simp only [applyRec]
  exact lookupA_eraseA_self _ _

/-! ### The claims -/

/-- Claim C1 (persistence round-trip): for any sequence of operations
executed on an engine `e1` opened on a directory, opening a fresh engine on
the resulting directory succeeds (replaying every log generation in
ascending order) and, for every key, `get` on the fresh engine returns
exactly what `get` would have returned as the next operation on `e1`. -/
theorem claim1_persistence (dir0 : Dir) (hnd : (dir0.map Prod.fst).Nodup)
    (e1 : KvStore) (hopen : KvStore.open dir0 = .ok e1) (ops : List Op) (k : List Nat) :
    ∃ e2, KvStore.open ((e1.steps ops).dir) = .ok e2 ∧
      e2.get k = (e1.steps ops).get k := by
  have hg1 : GoodState e1 := (open_goodState dir0 hnd e1 hopen).1
  obtain ⟨e2, h1, h2⟩ := reopen _ (goodState_steps e1 hg1 ops)
  exact ⟨e2, h1, h2 k⟩

/-- Witness for C1 at the empty directory with one `set`. -/
theorem claim1_witness :
    ∃ e2, KvStore.open ((st0.steps [Op.set [0x61] [0x62]]).dir) = .ok e2 ∧
      e2.get [0x61] = (st0.steps [Op.set [0x61] [0x62]]).get [0x61] :=
  claim1_persistence [] (by decide) st0 rfl [Op.set [0x61] [0x62]] [0x61]

/-- Claim C2 (last-writer-wins): after `set(k,v1) … set(k,vn)` with no
intervening `remove(k)`, `get(k)` returns `Some(vn)`; in particular a `set`
immediately followed by `get` of the same key observes the new value. -/
theorem claim2_last_writer_wins (s : KvStore) (hs : GoodState s) (k : List Nat) :
    (∀ (vs : List (List Nat)) (h : vs ≠ []),
      (vs.foldl (fun t v => t.set k v) s).get k = .ok (some (vs.getLast h))) ∧
    ∀ v, (s.set k v).get k = .ok (some v) :=
  ⟨fun vs h => lww_general k vs s hs h, fun v => get_after_set s hs k v⟩

/-- Witness for C2 on the freshly opened store. -/
theorem claim2_witness :
    (([[0x62], [0x63]] : List (List Nat)).foldl (fun t v => t.set [0x61] v) st0).get [0x61]
      = .ok (some [0x63]) :=
  (claim2_last_writer_wins st0 goodState_st0 [0x61]).1 [[0x62], [0x63]] (by simp)

/-- Counterexample to claim C3 as stated: in a state whose index entry for
the key points at bytes that decode to a `Remove` record, `get` returns the
successful result `Ok(None)` — it does not surface any error. -/
theorem claim3_counterexample :
    (∃ sec, lookupA badStore.map [0x61] = some sec ∧
      decode (((findFile badStore.dir sec.gen).drop sec.start).take sec.length)
        = some (Command.remove [0x61])) ∧
    badStore.get [0x61] = .ok none := by
  constructor
  · refine ⟨⟨1, 0, (encLine (Command.remove [0x61])).length⟩, rfl, ?_⟩
    show decode (((encLine (Command.remove [0x61])).drop 0).take
      (encLine (Command.remove [0x61])).length) = _
    rw [List.drop_zero, List.take_length]
    exact decode_encLine _
  · unfold KvStore.get
    rw [show lookupA badStore.map [0x61]
        = some ⟨1, 0, (encLine (Command.remove [0x61])).length⟩ from rfl]
    dsimp only
    rw [show lookupA badStore.dir (1 : Nat) = some (encLine (Command.remove [0x61])) from rfl]
    dsimp only
    rw [if_pos (by omega : 0 + (encLine (Command.remove [0x61])).length
      ≤ (encLine (Command.remove [0x61])).length)]
    rw [List.drop_zero, List.take_length, decode_encLine]

/-- Claim C3 amended: if `get(k)` finds an index pointer and the bytes read
at that pointer decode to a `Remove` record, `get` returns the successful
result `Ok(None)` (the `Remove` match arm of `get`), not a corruption
error. -/
theorem claim3_amended (s : KvStore) (k : List Nat) (sec : LogSection) (f rk : List Nat)
    (h1 : lookupA s.map k = some sec)
    (h2 : lookupA s.dir sec.gen = some f)
    (h3 : sec.start + sec.length ≤ f.length)
    (h4 : decode ((f.drop sec.start).take sec.length) = some (Command.remove rk)) :
    s.get k = .ok none := by
  unfold KvStore.get
  rw [h1]
  dsimp only
  rw [h2]
  dsimp only
  rw [if_pos h3, h4]

/-- Witness for the amended C3 at the concrete bad store. -/
theorem claim3_witness : badStore.get [0x61] = Except.ok none :=
  claim3_amended badStore [0x61] ⟨1, 0, (encLine (Command.remove [0x61])).length⟩
    (encLine (Command.remove [0x61])) [0x61] rfl rfl (by simp)
    (by rw [List.drop_zero, List.take_length]; exact decode_encLine _)

/-- Claim C4 (refuted — code bug): the `Seek` impl of `TrackingBufReader`
repositions the underlying handle and returns the new offset, but it binds
the result to a local that shadows the `pos` field and never assigns
`self.pos`, so the tracked `pos` field is NOT reset to the target offset:
after `seek(5)` on a reader with `pos = 0`, `pos` is still `0`, not `5`. -/
theorem claim4_seek_pos_unchanged :
    ((TrackingBufReader.new 0).seek 5).1.handlePos = 5 ∧
    ((TrackingBufReader.new 0).seek 5).2 = 5 ∧
    ((TrackingBufReader.new 0).seek 5).1.pos = 0 ∧
    ∀ (r : TrackingBufReader) (o : Nat), (r.seek o).1.pos = r.pos :=
  ⟨rfl, rfl, rfl, fun _ _ => rfl⟩

/-- Claim C5 (removal erases): after `set(k,v)` followed by `remove(k)`
(which succeeds), `get(k)` returns `None`. -/
theorem claim5_removal_erases (s : KvStore) (k v : List Nat) :
    ((s.set k v).remove k).2 = .ok () ∧ (((s.set k v).remove k).1).get k = .ok none :=
  set_then_remove s k v

/-- Claim C6 (remove-of-absent fails atomically): when the key is absent
from the index, `remove` returns the `KeyNotFound` error and leaves the
whole state — log files and index — exactly unchanged. -/
theorem claim6_remove_absent (s : KvStore) (k : List Nat)
    (h : lookupA s.map k = none) :
    s.remove k = (s, .error .keyNotFound) :=
  remove_absent_eq s k h

/-- Witness for C6 on the freshly opened store. -/
theorem claim6_witness : st0.remove [0x61] = (st0, .error .keyNotFound) :=
  claim6_remove_absent st0 [0x61] rfl

/-- Claim C7 (index pointer length exactness): `set` stores the pointer
`(gen, pos_start, writer.pos − pos_start)` whose length field is exactly the
byte count of the one encoded record it wrote, newline included; and every
pointer that replay adds to the index has as its length exactly the byte
count that `read_line` returned for the line at its start offset. -/
theorem claim7_pointer_length :
    (∀ (s : KvStore) (k v : List Nat),
      lookupA (s.set k v).map k
        = some ⟨s.gen, s.writerPos, (s.set k v).writerPos - s.writerPos⟩ ∧
      (s.set k v).writerPos - s.writerPos = (encLine (Command.set k v)).length) ∧
    ∀ (gen : Nat) (f : List Nat) (idx i : Index),
      loadLoop idx gen f 0 = .ok i →
      ∀ k sec, lookupA i k = some sec →
        lookupA idx k = some sec ∨ sec.length = (takeLine (f.drop sec.start)).length := by
  constructor
  · intro s k v
    constructor
    · simp [KvStore.set, lookupA_insertA_self]
    · simp [KvStore.set]
  · intro gen f idx i hok k sec hlk
    rcases loadLoop_ptrs idx gen f 0 i f hok (by rw [List.drop_zero]) (Nat.zero_le _)
        k sec hlk with h | h
    · exact Or.inl h
    · exact Or.inr h.2.2.1

/-- Witness for C7: replaying a one-record log yields a pointer whose length
is the byte count of that line. -/
theorem claim7_witness :
    lookupA ([] : Index) [0x61]
        = some ⟨1, 0, (encLine (Command.set [0x61] [0x62])).length⟩ ∨
      (⟨1, 0, (encLine (Command.set [0x61] [0x62])).length⟩ : LogSection).length
        = (takeLine ((logBytes [Command.set [0x61] [0x62]]).drop
            (⟨1, 0, (encLine (Command.set [0x61] [0x62])).length⟩ : LogSection).start)).length :=
  claim7_pointer_length.2 1 (logBytes [Command.set [0x61] [0x62]]) []
    (replayCmds 1 [] [Command.set [0x61] [0x62]] 0)
    (loadLoop_logBytes_ok 1 [Command.set [0x61] [0x62]] [] 0)
    [0x61] ⟨1, 0, (encLine (Command.set [0x61] [0x62])).length⟩ rfl

/-- Claim C8 (generation allocation and monotonicity): `open` chooses the
active generation as (maximum existing generation, or 0 if none) + 1; after
any operations the directory's maximum generation equals that value, hence
strictly exceeds the maximum before the open — so across successive opens
on the same directory the maximum generation strictly increases. -/
theorem claim8_generation_monotonic (dir0 : Dir) (hnd : (dir0.map Prod.fst).Nodup)
    (e1 : KvStore) (hopen : KvStore.open dir0 = .ok e1) :
    e1.gen = maxGen dir0 + 1 ∧
    ∀ ops : List Op, maxGen ((e1.steps ops).dir) = maxGen dir0 + 1 ∧
      maxGen dir0 < maxGen ((e1.steps ops).dir) := by
  obtain ⟨-, hgen, hdir⟩ := open_goodState dir0 hnd e1 hopen
  refine ⟨hgen, ?_⟩
  intro ops
  have heq : maxGen ((e1.steps ops).dir) = maxGen e1.dir := by
    unfold maxGen
    rw [keys_steps]
  have h1 : maxGen e1.dir = maxGen dir0 + 1 := by
    rw [hdir, maxGen_snoc, hgen]
    omega
  rw [heq, h1]
  omega

/-- Witness for C8 at the empty directory. -/
theorem claim8_witness :
    st0.gen = maxGen ([] : Dir) + 1 ∧
    maxGen ((st0.steps [Op.set [0x61] [0x62]]).dir) = maxGen ([] : Dir) + 1 ∧
    maxGen ([] : Dir) < maxGen ((st0.steps [Op.set [0x61] [0x62]]).dir) :=
  ⟨(claim8_generation_monotonic [] (by decide) st0 rfl).1,
   (claim8_generation_monotonic [] (by decide) st0 rfl).2 [Op.set [0x61] [0x62]]⟩

/-- Claim C9 (independent keys): a `set` or `remove` of key `k1` changes
neither the index entry for a distinct key `k2` nor the result of a
subsequent `get(k2)`. -/
theorem claim9_independent_keys (s : KvStore) (hs : GoodState s) (k1 k2 : List Nat)
    (hne : k1 ≠ k2) :
    (∀ v, lookupA (s.set k1 v).map k2 = lookupA s.map k2 ∧
      (s.set k1 v).get k2 = s.get k2) ∧
    (lookupA (s.remove k1).1.map k2 = lookupA s.map k2 ∧
      (s.remove k1).1.get k2 = s.get k2) := by
  have hne2 : k2 ≠ k1 := fun h => hne h.symm
  constructor
  · intro v
    have hmap : lookupA (s.set k1 v).map k2 = lookupA s.map k2 := by
      rw [set_fields]
      simp only [applyRec]
      exact lookupA_insertA_ne _ _ _ _ hne2
    exact ⟨hmap, get_eq_of_dir_append s hs k2 s.gen (encLine (Command.set k1 v)) _ hmap
      (by rw [set_fields])⟩
  · cases hlk : lookupA s.map k1 with
    | none =>
      rw [remove_absent_eq s k1 hlk]
      exact ⟨rfl, rfl⟩
    | some sec =>
      have hmap : lookupA (s.remove k1).1.map k2 = lookupA s.map k2 := by
        rw [remove_fields s k1 sec hlk]
        simp only [applyRec]
        exact lookupA_eraseA_ne _ _ _ hne2
      exact ⟨hmap, get_eq_of_dir_append s hs k2 s.gen (encLine (Command.remove k1)) _ hmap
        (by rw [remove_fields s k1 sec hlk])⟩

/-- Witness for C9 on the freshly opened store. -/
theorem claim9_witness :
    lookupA (st0.set [0x61] [0x62]).map [0x63] = lookupA st0.map [0x63] ∧
    (st0.set [0x61] [0x62]).get [0x63] = st0.get [0x63] :=
  (claim9_independent_keys st0 goodState_st0 [0x61] [0x63] (by decide)).1 [0x62]

/-- Claim C10 (empty keys accepted): the engine performs no non-emptiness
check on keys: `set("", v)` succeeds, a subsequent `get("")` returns
`Some(v)`, and `remove("")` succeeds (and erases). -/
theorem claim10_empty_key (s : KvStore) (hs : GoodState s) (v : List Nat) :
    (s.set [] v).get [] = .ok (some v) ∧
    ((s.set [] v).remove []).2 = .ok () ∧
    (((s.set [] v).remove []).1).get [] = .ok none :=
  ⟨get_after_set s hs [] v, (set_then_remove s [] v).1, (set_then_remove s [] v).2⟩

/-- Witness for C10 on the freshly opened store. -/
theorem claim10_witness :
    (st0.set [] [0x62]).get [] = .ok (some [0x62]) ∧
    ((st0.set [] [0x62]).remove []).2 = .ok () ∧
    (((st0.set [] [0x62]).remove []).1).get [] = .ok none :=
  claim10_empty_key st0 goodState_st0 [0x62]

end Kvs
